import Mathlib

set_option maxHeartbeats 1000000
set_option maxRecDepth 8000

/-!
Shallow embedding of the large-document summarization pipeline of
`src/llm_client.py` (class `LLMClient`: `_chunk`, `_get_chat_completion`,
`summarize`) together with the worker-count configuration handling of
`src/config.py` (`AzureOpenAISettings.chunk_workers`) and line 50 of
`llm_client.py` (`self.chunk_workers = max(1, ...)`).

Python strings are modelled as lists of characters; the external
chat-completion service is an abstract capability function from a message
list to either a raised error or a reply (where `none` models a falsy /
empty response object, which `_get_chat_completion` turns into `""`).
The thread pool used for multi-chunk dispatch is modelled by an explicit
completion-order parameter `perm`: `as_completed` hands back the finished
futures in some order that is a permutation of the submitted ones, and each
result is written into the slot `partial_summaries[idx - 1]` of a
pre-allocated list, exactly as in lines 137-143 of the source.
-/

/-- Python strings as lists of characters. -/
abbrev Str := List Char

/-- Character list of a string literal. -/
def strOf (s : String) : Str := s.data

/-- Decimal rendering of a natural number, as Python `str(int)` inside the
f-string of `_summarize_chunk`. -/
def natToStr (n : Nat) : Str := (Nat.repr n).data

/-- A chat message dictionary with a role and a content. -/
structure Message where
  role : Str
  content : Str
deriving DecidableEq

/-- A message with role `"system"`. -/
def sysMsg (s : Str) : Message := ⟨strOf "system", s⟩

/-- A message with role `"user"`. -/
def userMsg (s : Str) : Message := ⟨strOf "user", s⟩

/-- The abstract chat-completion capability (the Semantic Kernel service
behind `_get_chat_completion`): it receives the message list and either
raises an error or returns a response, `none` standing for a falsy
response object. -/
abbrev Cap (ε : Type) := List Message → Except ε (Option Str)

instance {ε α : Type} [DecidableEq ε] [DecidableEq α] : DecidableEq (Except ε α) := fun a b =>
  match a, b with
  | Except.error e, Except.error e' =>
    if h : e = e' then isTrue (by rw [h]) else isFalse (by intro hc; cases hc; exact h rfl)
  | Except.error _, Except.ok _ => isFalse (by intro hc; cases hc)
  | Except.ok _, Except.error _ => isFalse (by intro hc; cases hc)
  | Except.ok a, Except.ok b =>
    if h : a = b then isTrue (by rw [h]) else isFalse (by intro hc; cases hc; exact h rfl)

/-- Whether an `Except` value is an error. -/
def Except.isErr {ε α : Type} : Except ε α → Bool
  | Except.error _ => true
  | Except.ok _ => false

/-- Embedding of `LLMClient._get_chat_completion` (lines 62-95): build the
chat history from the messages, call the service, and return
`str(response) if response else ""`; a raised error propagates. -/
def getChatCompletion {ε : Type} (cap : Cap ε) (msgs : List Message) : Except ε Str :=
  match cap msgs with
  | Except.error e => Except.error e
  | Except.ok none => Except.ok []
  | Except.ok (some s) => Except.ok s

/-- Body of the `while start < len(text)` loop of `LLMClient._chunk`
(lines 100-106), made structurally recursive on a fuel that starts at
`text.length`: each iteration consumes at least one character when
`step ≥ 1`, so the fuel is never exhausted on a nonempty suffix and the
function computes exactly the source loop. -/
def chunkGo (step : Nat) : Nat → Str → List Str
  | _, [] => []
  | 0, _ :: _ => []
  | fuel + 1, c :: cs => (c :: cs).take step :: chunkGo step fuel ((c :: cs).drop step)

/-- The chunk-accumulation loop of `LLMClient._chunk` started on the whole
text (`start = 0`). -/
def chunkLoop (step : Nat) (text : Str) : List Str := chunkGo step text.length text

/-- Embedding of `LLMClient._chunk` (lines 97-107). -/
def chunk (maxCharsPerChunk : Nat) (text : Str) : List Str :=
  if text.length ≤ maxCharsPerChunk then [text]
  else chunkLoop maxCharsPerChunk text

/-- Default system prompt of `summarize` (line 115). -/
def defaultSystemPrompt : Str :=
  strOf "You are a helpful assistant that writes concise, accurate summaries."

/-- Default user prompt of `summarize` (lines 116-118). -/
def defaultUserPrompt : Str :=
  strOf "Summarize the following content in 8-12 bullet points with headings and key takeaways."

/-- The literal separator between the prompt and the content (lines 124, 132). -/
def contentSep : Str := strOf "\n\nCONTENT:\n"

/-- User-message text of a per-chunk call: the f-string
`f"Chunk {idx}/{total}. {user_prompt}\n\nCONTENT:\n" + content` (line 132). -/
def chunkUserContent (userPrompt : Str) (idx total : Nat) (content : Str) : Str :=
  strOf "Chunk " ++ natToStr idx ++ strOf "/" ++ natToStr total ++ strOf ". " ++
    userPrompt ++ contentSep ++ content

/-- The two messages of a per-chunk capability call (lines 130-133). -/
def chunkMsgs (systemPrompt userPrompt : Str) (idx total : Nat) (content : Str) : List Message :=
  [sysMsg systemPrompt, userMsg (chunkUserContent userPrompt idx total content)]

/-- Embedding of `_summarize_chunk` (lines 128-135): one capability call for
the chunk, then `result or ""` (line 135). -/
def chunkResult {ε : Type} (cap : Cap ε) (systemPrompt userPrompt : Str)
    (total idx : Nat) (content : Str) : Except ε Str :=
  match getChatCompletion cap (chunkMsgs systemPrompt userPrompt idx total content) with
  | Except.error e => Except.error e
  | Except.ok r => Except.ok (if r = [] then [] else r)

/-- The fixed synthesis instruction (lines 149-153; the three adjacent Python
string literals concatenate into this single text). -/
def synthInstr : Str :=
  strOf "You will receive multiple partial summaries from segments of a document. Produce the final requested output exactly per the user instructions (which may include returning a title and Markdown body). Keep factual fidelity."

/-- The literal header before the joined partial summaries (line 156). -/
def partsHeader : Str := strOf "\n\nPARTIAL SUMMARIES:\n"

/-- The blank-line separator used by `"\n\n".join(partial_summaries)`. -/
def blankLine : Str := strOf "\n\n"

/-- Python `sep.join(list)`. -/
def joinSep (sep : Str) : List Str → Str
  | [] => []
  | [x] => x
  | x :: y :: xs => x ++ sep ++ joinSep sep (y :: xs)

/-- The two messages of the synthesis capability call (lines 154-157). -/
def synthMsgs (systemPrompt : Str) (parts : List Str) : List Message :=
  [sysMsg systemPrompt, userMsg (synthInstr ++ partsHeader ++ joinSep blankLine parts)]

/-- A capability call recorded at its program point in `summarize`: the
single-chunk call of line 126, a per-chunk call of line 134, or the
synthesis call of line 158. -/
inductive CapCall where
  | single (msgs : List Message)
  | chunkCall (msgs : List Message)
  | synthesis (msgs : List Message)
deriving DecidableEq

/-- Whether a recorded call is the synthesis call. -/
def CapCall.isSynth : CapCall → Bool
  | CapCall.synthesis _ => true
  | _ => false

/-- The fan-in of lines 141-143 / 145-147: process the chunk indices in the
given completion order, writing each chunk's result into slot `idx - 1` of
the pre-allocated `partial_summaries` list; the first failing future's
error propagates. -/
def collectParts {ε : Type} (cap : Cap ε) (sp up : Str) (chunks : List Str) :
    List Nat → List Str → Except ε (List Str)
  | [], acc => Except.ok acc
  | idx :: rest, acc =>
    match chunkResult cap sp up chunks.length idx (chunks.getD (idx - 1) []) with
    | Except.error e => Except.error e
    | Except.ok r => collectParts cap sp up chunks rest (acc.set (idx - 1) r)

/-- The sequential loop of lines 144-147, additionally recording the
capability calls actually issued (the loop stops at the first error, so
later chunks' calls are never made). -/
def runSeq {ε : Type} (cap : Cap ε) (sp up : Str) (chunks : List Str) :
    List Nat → List Str → List CapCall × Except ε (List Str)
  | [], acc => ([], Except.ok acc)
  | idx :: rest, acc =>
    match chunkResult cap sp up chunks.length idx (chunks.getD (idx - 1) []) with
    | Except.error e =>
      ([CapCall.chunkCall (chunkMsgs sp up idx chunks.length (chunks.getD (idx - 1) []))],
        Except.error e)
    | Except.ok r =>
      let next := runSeq cap sp up chunks rest (acc.set (idx - 1) r)
      (CapCall.chunkCall (chunkMsgs sp up idx chunks.length (chunks.getD (idx - 1) [])) :: next.1,
        next.2)

/-- The capability calls issued by the thread-pool branch (lines 139-140):
one per chunk, submitted in ascending index order; the pool executes every
submitted task even when one of them fails, since the executor's shutdown
waits for all futures. -/
def concTrace (sp up : Str) (chunks : List Str) : List CapCall :=
  (List.range' 1 chunks.length).map
    (fun idx => CapCall.chunkCall (chunkMsgs sp up idx chunks.length (chunks.getD (idx - 1) [])))

/-- The order in which chunk results are folded into `partial_summaries`:
the completion order of the futures in the thread-pool branch, the ascending
index order in the sequential branch (line 138's condition). -/
def dispatchOrder (chunkWorkers : Int) (n : Nat) (perm : List Nat) : List Nat :=
  if 1 < chunkWorkers ∧ 1 < n then perm else List.range' 1 n

/-- The multi-chunk dispatch of lines 137-147: thread pool when
`self.chunk_workers > 1 and len(chunks) > 1`, else the sequential loop. -/
def multiRun {ε : Type} (cap : Cap ε) (sp up : Str) (chunks : List Str)
    (chunkWorkers : Int) (perm : List Nat) : List CapCall × Except ε (List Str) :=
  if 1 < chunkWorkers ∧ 1 < chunks.length then
    (concTrace sp up chunks, collectParts cap sp up chunks perm (List.replicate chunks.length []))
  else
    runSeq cap sp up chunks (List.range' 1 chunks.length) (List.replicate chunks.length [])

/-- Embedding of `LLMClient.summarize` (lines 109-158), returning the list of
capability calls issued together with the result (the returned string, or
the error that the Python method raises). -/
def summarize {ε : Type} (cap : Cap ε) (maxCharsPerChunk : Nat) (chunkWorkers : Int)
    (systemPrompt userPrompt : Option Str) (text : Str) (perm : List Nat) :
    List CapCall × Except ε Str :=
  let sp := systemPrompt.getD defaultSystemPrompt
  let up := userPrompt.getD defaultUserPrompt
  let chunks := chunk maxCharsPerChunk text
  if chunks.length = 1 then
    let msgs := [sysMsg sp, userMsg (up ++ contentSep ++ chunks.getD 0 [])]
    ([CapCall.single msgs], getChatCompletion cap msgs)
  else
    match multiRun cap sp up chunks chunkWorkers perm with
    | (trace, Except.error e) => (trace, Except.error e)
    | (trace, Except.ok parts) =>
      (trace ++ [CapCall.synthesis (synthMsgs sp parts)],
        getChatCompletion cap (synthMsgs sp parts))

/-- The `chunk_workers` value taken from the configuration (`config.py`
lines 40-41 and 85-86): the configured integer, or 1 when the key is absent. -/
def chunkWorkersOfConfig (chunkWorkersSetting : Option Int) : Int :=
  chunkWorkersSetting.getD 1

/-- `LLMClient.__init__` line 50: `self.chunk_workers = max(1, ...)`. -/
def effectiveChunkWorkers (w : Int) : Int := max 1 w

/-- A capability that always replies with the text `"S"`. -/
def capConst : Cap Unit := fun _ => Except.ok (some (strOf "S"))

/-- A capability that always raises. -/
def capFail : Cap Unit := fun _ => Except.error ()

/-- A capability that always returns a falsy (empty) reply. -/
def capEmpty : Cap Unit := fun _ => Except.ok none

/-- A capability that raises exactly on the synthesis call built from the
system prompt "s" and two "S" partial summaries, and replies "S" on every
other call: it exhibits a synthesis-only failure while every chunk call
succeeds. -/
def capSynthFail : Cap Unit := fun msgs =>
  if msgs = synthMsgs (strOf "s") [strOf "S", strOf "S"] then Except.error ()
  else Except.ok (some (strOf "S"))

/-! Lemmas about the chunking loop. -/

theorem chunkGo_nil (step fuel : Nat) : chunkGo step fuel [] = [] := by
  cases fuel <;> rfl

theorem chunkGo_congr (step : Nat) (hs : 0 < step) :
    ∀ (fuelA fuelB : Nat) (text : Str), text.length ≤ fuelA → text.length ≤ fuelB →
      chunkGo step fuelA text = chunkGo step fuelB text := by
  intro fuelA
  induction fuelA with
  | zero =>
    intro fuelB text hleA _
    have : text = [] := List.length_eq_zero.mp (Nat.le_zero.mp hleA)
    subst this
    rw [chunkGo_nil, chunkGo_nil]
  | succ n ih =>
    intro fuelB text hleA hleB
    cases text with
    | nil => rw [chunkGo_nil, chunkGo_nil]
    | cons c cs =>
      cases fuelB with
      | zero => simp at hleB
      | succ m =>
        simp only [chunkGo]
        have hdropA : ((c :: cs).drop step).length ≤ n := by
          rw [List.length_drop]
          simp only [List.length_cons] at hleA ⊢
          omega
        have hdropB : ((c :: cs).drop step).length ≤ m := by
          rw [List.length_drop]
          simp only [List.length_cons] at hleB ⊢
          omega
        rw [ih m _ hdropA hdropB]

theorem chunkGo_fuel (step : Nat) (hs : 0 < step) (fuel : Nat) (text : Str)
    (hle : text.length ≤ fuel) :
    chunkGo step fuel text = chunkGo step text.length text :=
  chunkGo_congr step hs fuel text.length text hle (Nat.le_refl _)

theorem chunkLoop_nil (step : Nat) : chunkLoop step [] = [] := rfl

theorem chunkLoop_cons (step : Nat) (hs : 0 < step) (text : Str) (h : text ≠ []) :
    chunkLoop step text = text.take step :: chunkLoop step (text.drop step) := by
  cases text with
  | nil => exact absurd rfl h
  | cons c cs =>
    show chunkGo step (cs.length + 1) (c :: cs) = _
    simp only [chunkGo]
    rw [chunkGo_fuel step hs cs.length ((c :: cs).drop step)
      (by rw [List.length_drop]; simp only [List.length_cons]; omega)]
    rfl

theorem chunkLoop_ne_nil (step : Nat) (hs : 0 < step) (text : Str) (h : text ≠ []) :
    chunkLoop step text ≠ [] := by
  rw [chunkLoop_cons step hs text h]
  exact List.cons_ne_nil _ _

theorem chunkLoop_spec (step : Nat) (hs : 0 < step) :
    ∀ (n : Nat) (text : Str), text.length ≤ n → text ≠ [] →
      (chunkLoop step text).length = (text.length + step - 1) / step ∧
      (∀ c ∈ (chunkLoop step text).dropLast, c.length = step) ∧
      (∃ last, (chunkLoop step text).getLast? = some last ∧
        last.length = if text.length % step = 0 then step else text.length % step) := by
  intro n
  induction n with
  | zero =>
    intro text hle hne
    exact absurd (List.length_eq_zero.mp (Nat.le_zero.mp hle)) hne
  | succ n ih =>
    intro text hle hne
    have hpos : 0 < text.length := List.length_pos.mpr hne
    rw [chunkLoop_cons step hs text hne]
    by_cases hshort : text.length ≤ step
    · have hdrop : text.drop step = [] := List.drop_eq_nil_of_le hshort
      have htake : text.take step = text := List.take_of_length_le hshort
      rw [hdrop, chunkLoop_nil, htake]
      refine ⟨?_, ?_, text, rfl, ?_⟩
      · show 1 = (text.length + step - 1) / step
        have hdiv : (text.length + step - 1) / step = 1 :=
          Nat.div_eq_of_lt_le (by omega : 1 * step ≤ text.length + step - 1)
            (by omega : text.length + step - 1 < Nat.succ 1 * step)
        exact hdiv.symm
      · intro c hc
        simp [List.dropLast] at hc
      · rcases Nat.lt_or_ge text.length step with hlt | hge
        · rw [Nat.mod_eq_of_lt hlt, if_neg (by omega)]
        · have : text.length = step := Nat.le_antisymm hshort hge
          rw [this, Nat.mod_self, if_pos rfl]
    · push_neg at hshort
      have hdropne : text.drop step ≠ [] := by
        intro hcon
        have := List.drop_eq_nil_iff.mp hcon
        omega
      have hdlen : (text.drop step).length = text.length - step := List.length_drop step text
      obtain ⟨ihlen, ihdrop, last, ihlast, ihlastlen⟩ :=
        ih (text.drop step) (by omega) hdropne
      have htakelen : (text.take step).length = step := by
        rw [List.length_take]
        omega
      refine ⟨?_, ?_, last, ?_, ?_⟩
      · simp only [List.length_cons, ihlen, hdlen]
        have h1 : text.length - step + step - 1 = text.length - 1 := by omega
        have h2 : text.length + step - 1 = (text.length - 1) + step := by omega
        rw [h1, h2, Nat.add_div_right _ hs]
      · intro c hc
        rw [List.dropLast_cons_of_ne_nil (chunkLoop_ne_nil step hs _ hdropne)] at hc
        rcases List.mem_cons.mp hc with rfl | hc
        · exact htakelen
        · exact ihdrop c hc
      · rw [List.getLast?_cons, ihlast]
        simp [chunkLoop_ne_nil step hs _ hdropne]
      · rw [ihlastlen, hdlen]
        have hmod : (text.length - step) % step = text.length % step := by
          conv_rhs => rw [← Nat.sub_add_cancel (Nat.le_of_lt hshort)]
          rw [Nat.add_mod_right]
        rw [hmod]

theorem chunkLoop_join (step : Nat) (hs : 0 < step) :
    ∀ (n : Nat) (text : Str), text.length ≤ n →
      (chunkLoop step text).flatten = text := by
  intro n
  induction n with
  | zero =>
    intro text hle
    have : text = [] := List.length_eq_zero.mp (Nat.le_zero.mp hle)
    subst this
    rfl
  | succ n ih =>
    intro text hle
    by_cases hne : text = []
    · subst hne; rfl
    · rw [chunkLoop_cons step hs text hne]
      have hdlen : (text.drop step).length ≤ n := by
        rw [List.length_drop]
        have : 0 < text.length := List.length_pos.mpr hne
        omega
      simp only [List.flatten_cons, ih (text.drop step) hdlen]
      exact List.take_append_drop step text

/-! Lemmas about the fan-out / fan-in of multi-chunk dispatch. -/

theorem runSeq_res {ε : Type} (cap : Cap ε) (sp up : Str) (chunks : List Str) :
    ∀ (order : List Nat) (acc : List Str),
      (runSeq cap sp up chunks order acc).2 = collectParts cap sp up chunks order acc := by
  intro order
  induction order with
  | nil => intro acc; rfl
  | cons idx rest ih =>
    intro acc
    simp only [runSeq, collectParts]
    cases chunkResult cap sp up chunks.length idx (chunks.getD (idx - 1) []) with
    | error e => rfl
    | ok r => exact ih _

theorem runSeq_trace_shape {ε : Type} (cap : Cap ε) (sp up : Str) (chunks : List Str) :
    ∀ (order : List Nat) (acc : List Str),
      ∀ c ∈ (runSeq cap sp up chunks order acc).1, ∃ m, c = CapCall.chunkCall m := by
  intro order
  induction order with
  | nil => intro acc c hc; simp [runSeq] at hc
  | cons idx rest ih =>
    intro acc c hc
    cases hres : chunkResult cap sp up chunks.length idx (chunks.getD (idx - 1) []) with
    | error e =>
      simp only [runSeq, hres, List.mem_singleton] at hc
      exact ⟨_, hc⟩
    | ok r =>
      simp only [runSeq, hres, List.mem_cons] at hc
      rcases hc with rfl | hc
      · exact ⟨_, rfl⟩
      · exact ih _ c hc

theorem runSeq_trace_ok {ε : Type} (cap : Cap ε) (sp up : Str) (chunks : List Str) (f : Nat → Str) :
    ∀ (order : List Nat) (acc : List Str),
      (∀ idx ∈ order,
        chunkResult cap sp up chunks.length idx (chunks.getD (idx - 1) []) = Except.ok (f idx)) →
      (runSeq cap sp up chunks order acc).1 =
        order.map (fun idx =>
          CapCall.chunkCall (chunkMsgs sp up idx chunks.length (chunks.getD (idx - 1) []))) := by
  intro order
  induction order with
  | nil => intro acc _; rfl
  | cons idx rest ih =>
    intro acc hok
    have hres := hok idx (List.mem_cons_self idx rest)
    simp only [runSeq, hres, List.map_cons]
    rw [ih _ (fun j hj => hok j (List.mem_cons_of_mem idx hj))]

theorem collectParts_error {ε : Type} (cap : Cap ε) (sp up : Str) (chunks : List Str) :
    ∀ (order : List Nat) (acc : List Str),
      (∃ idx ∈ order,
        (chunkResult cap sp up chunks.length idx (chunks.getD (idx - 1) [])).isErr = true) →
      ∃ e, collectParts cap sp up chunks order acc = Except.error e := by
  intro order
  induction order with
  | nil => intro acc h; simp at h
  | cons idx rest ih =>
    intro acc h
    simp only [collectParts]
    cases hres : chunkResult cap sp up chunks.length idx (chunks.getD (idx - 1) []) with
    | error e => exact ⟨e, rfl⟩
    | ok r =>
      apply ih
      rcases h with ⟨j, hj, hjerr⟩
      rcases List.mem_cons.mp hj with rfl | hj
      · rw [hres] at hjerr
        simp [Except.isErr] at hjerr
      · exact ⟨j, hj, hjerr⟩

theorem collectParts_ok {ε : Type} (cap : Cap ε) (sp up : Str) (chunks : List Str) (f : Nat → Str) :
    ∀ (order : List Nat) (acc : List Str),
      (∀ idx ∈ order,
        chunkResult cap sp up chunks.length idx (chunks.getD (idx - 1) []) = Except.ok (f idx)) →
      collectParts cap sp up chunks order acc =
        Except.ok (order.foldl (fun a idx => a.set (idx - 1) (f idx)) acc) := by
  intro order
  induction order with
  | nil => intro acc _; rfl
  | cons idx rest ih =>
    intro acc hok
    simp only [collectParts, List.foldl_cons]
    rw [hok idx (List.mem_cons_self idx rest)]
    exact ih _ (fun j hj => hok j (List.mem_cons_of_mem idx hj))

theorem foldl_set_length (f : Nat → Str) :
    ∀ (order : List Nat) (acc : List Str),
      (order.foldl (fun a idx => a.set (idx - 1) (f idx)) acc).length = acc.length := by
  intro order
  induction order with
  | nil => intro acc; rfl
  | cons idx rest ih =>
    intro acc
    simp only [List.foldl_cons]
    rw [ih, List.length_set]

theorem foldl_set_getElem (f : Nat → Str) :
    ∀ (order : List Nat) (acc : List Str), (∀ idx ∈ order, 1 ≤ idx) →
      ∀ i, i < acc.length →
        (order.foldl (fun a idx => a.set (idx - 1) (f idx)) acc)[i]? =
          if i + 1 ∈ order then some (f (i + 1)) else acc[i]? := by
  intro order
  induction order with
  | nil =>
    intro acc _ i _
    simp
  | cons idx rest ih =>
    intro acc hpos i hi
    simp only [List.foldl_cons]
    rw [ih _ (fun j hj => hpos j (List.mem_cons_of_mem idx hj)) i (by rw [List.length_set]; exact hi)]
    have hidx1 : 1 ≤ idx := hpos idx (List.mem_cons_self idx rest)
    by_cases hmem : i + 1 ∈ rest
    · rw [if_pos hmem, if_pos (List.mem_cons_of_mem idx hmem)]
    · rw [if_neg hmem]
      by_cases heq : i + 1 = idx
      · subst heq
        simp only [Nat.add_sub_cancel]
        rw [List.getElem?_set_self hi, if_pos (List.mem_cons_self _ _)]
      · have hset : idx - 1 ≠ i := by omega
        rw [List.getElem?_set_ne hset, if_neg (by
          intro hc
          rcases List.mem_cons.mp hc with hc | hc
          · exact heq hc
          · exact hmem hc)]

theorem mem_range_one (s n m : Nat) : m ∈ List.range' s n ↔ s ≤ m ∧ m < s + n := by
  rw [List.mem_range']
  constructor
  · rintro ⟨i, hi, rfl⟩
    omega
  · intro ⟨h1, h2⟩
    exact ⟨m - s, by omega, by omega⟩

theorem collectParts_of_perm {ε : Type} (cap : Cap ε) (sp up : Str) (chunks : List Str)
    (f : Nat → Str) (order : List Nat)
    (hperm : order.Perm (List.range' 1 chunks.length))
    (hok : ∀ idx ∈ order,
      chunkResult cap sp up chunks.length idx (chunks.getD (idx - 1) []) = Except.ok (f idx)) :
    collectParts cap sp up chunks order (List.replicate chunks.length []) =
      Except.ok ((List.range' 1 chunks.length).map f) := by
  rw [collectParts_ok cap sp up chunks f order _ hok]
  congr 1
  have hpos : ∀ idx ∈ order, 1 ≤ idx := by
    intro idx hidx
    have := (mem_range_one 1 chunks.length idx).mp (hperm.mem_iff.mp hidx)
    omega
  apply List.ext_getElem?
  intro i
  by_cases hi : i < chunks.length
  · rw [foldl_set_getElem f order _ hpos i (by rw [List.length_replicate]; exact hi)]
    have hmem : i + 1 ∈ order := by
      rw [hperm.mem_iff, mem_range_one]
      omega
    rw [if_pos hmem, List.getElem?_map, List.getElem?_range' 1 1 hi]
    simp only [Option.map_some']
    have harith : 1 + 1 * i = i + 1 := by omega
    rw [harith]
  · rw [List.getElem?_eq_none (by rw [foldl_set_length, List.length_replicate]; omega),
      List.getElem?_eq_none (by rw [List.length_map, List.length_range']; omega)]

theorem multiRun_res {ε : Type} (cap : Cap ε) (sp up : Str) (chunks : List Str)
    (W : Int) (perm : List Nat) :
    (multiRun cap sp up chunks W perm).2 =
      collectParts cap sp up chunks (dispatchOrder W chunks.length perm)
        (List.replicate chunks.length []) := by
  simp only [multiRun, dispatchOrder]
  split
  · rfl
  · exact runSeq_res cap sp up chunks _ _

theorem multiRun_trace_shape {ε : Type} (cap : Cap ε) (sp up : Str) (chunks : List Str)
    (W : Int) (perm : List Nat) :
    ∀ c ∈ (multiRun cap sp up chunks W perm).1, ∃ m, c = CapCall.chunkCall m := by
  intro c hc
  simp only [multiRun] at hc
  by_cases hcond : 1 < W ∧ 1 < chunks.length
  · rw [if_pos hcond] at hc
    simp only [concTrace, List.mem_map] at hc
    obtain ⟨idx, _, rfl⟩ := hc
    exact ⟨_, rfl⟩
  · rw [if_neg hcond] at hc
    exact runSeq_trace_shape cap sp up chunks _ _ c hc

theorem multiRun_of_seq {ε : Type} (cap : Cap ε) (sp up : Str) (chunks : List Str)
    (W : Int) (perm : List Nat) (hW : W ≤ 1) :
    multiRun cap sp up chunks W perm =
      runSeq cap sp up chunks (List.range' 1 chunks.length)
        (List.replicate chunks.length []) := by
  simp only [multiRun]
  rw [if_neg (by intro ⟨h1, _⟩; omega)]

theorem summarize_of_multi_error {ε : Type} (cap : Cap ε) (M : Nat) (W : Int)
    (sp up : Option Str) (text : Str) (perm : List Nat) (e : ε)
    (hne : (chunk M text).length ≠ 1)
    (he : (multiRun cap (sp.getD defaultSystemPrompt) (up.getD defaultUserPrompt)
      (chunk M text) W perm).2 = Except.error e) :
    summarize cap M W sp up text perm =
      ((multiRun cap (sp.getD defaultSystemPrompt) (up.getD defaultUserPrompt)
        (chunk M text) W perm).1, Except.error e) := by
  have hm : multiRun cap (sp.getD defaultSystemPrompt) (up.getD defaultUserPrompt)
      (chunk M text) W perm =
      ((multiRun cap (sp.getD defaultSystemPrompt) (up.getD defaultUserPrompt)
        (chunk M text) W perm).1, Except.error e) := by
    rw [← he]
  simp only [summarize]
  rw [if_neg hne, hm]

theorem summarize_of_multi_ok {ε : Type} (cap : Cap ε) (M : Nat) (W : Int)
    (sp up : Option Str) (text : Str) (perm : List Nat) (parts : List Str)
    (hne : (chunk M text).length ≠ 1)
    (he : (multiRun cap (sp.getD defaultSystemPrompt) (up.getD defaultUserPrompt)
      (chunk M text) W perm).2 = Except.ok parts) :
    summarize cap M W sp up text perm =
      ((multiRun cap (sp.getD defaultSystemPrompt) (up.getD defaultUserPrompt)
        (chunk M text) W perm).1 ++
          [CapCall.synthesis (synthMsgs (sp.getD defaultSystemPrompt) parts)],
        getChatCompletion cap (synthMsgs (sp.getD defaultSystemPrompt) parts)) := by
  have hm : multiRun cap (sp.getD defaultSystemPrompt) (up.getD defaultUserPrompt)
      (chunk M text) W perm =
      ((multiRun cap (sp.getD defaultSystemPrompt) (up.getD defaultUserPrompt)
        (chunk M text) W perm).1, Except.ok parts) := by
    rw [← he]
  simp only [summarize]
  rw [if_neg hne, hm]

theorem chunkResult_ok_of_cap_ok {ε : Type} (cap : Cap ε) (sp up : Str)
    (total idx : Nat) (content : Str)
    (hcap : ∀ m, (cap m).isErr = false) :
    ∃ r, chunkResult cap sp up total idx content = Except.ok r := by
  unfold chunkResult getChatCompletion
  cases hres : cap (chunkMsgs sp up idx total content) with
  | error e =>
    have := hcap (chunkMsgs sp up idx total content)
    rw [hres] at this
    simp [Except.isErr] at this
  | ok o =>
    cases o with
    | none => exact ⟨_, rfl⟩
    | some s => exact ⟨_, rfl⟩

theorem collectParts_total {ε : Type} (cap : Cap ε) (sp up : Str) (chunks : List Str)
    (hcap : ∀ m, (cap m).isErr = false) :
    ∀ (order : List Nat) (acc : List Str),
      ∃ parts, collectParts cap sp up chunks order acc = Except.ok parts := by
  intro order
  induction order with
  | nil => intro acc; exact ⟨acc, rfl⟩
  | cons idx rest ih =>
    intro acc
    obtain ⟨r, hr⟩ :=
      chunkResult_ok_of_cap_ok cap sp up chunks.length idx (chunks.getD (idx - 1) []) hcap
    simp only [collectParts, hr]
    exact ih _

theorem getChatCompletion_ok_of_cap_ok {ε : Type} (cap : Cap ε) (msgs : List Message)
    (hcap : ∀ m, (cap m).isErr = false) :
    ∃ s, getChatCompletion cap msgs = Except.ok s := by
  unfold getChatCompletion
  cases hres : cap msgs with
  | error e =>
    have := hcap msgs
    rw [hres] at this
    simp [Except.isErr] at this
  | ok o =>
    cases o with
    | none => exact ⟨_, rfl⟩
    | some s => exact ⟨_, rfl⟩

theorem runSeq_trace_mem {ε : Type} (cap : Cap ε) (sp up : Str) (chunks : List Str) :
    ∀ (order : List Nat) (acc : List Str) (msgs : List Message),
      CapCall.chunkCall msgs ∈ (runSeq cap sp up chunks order acc).1 →
      ∃ idx ∈ order,
        msgs = chunkMsgs sp up idx chunks.length (chunks.getD (idx - 1) []) := by
  intro order
  induction order with
  | nil => intro acc msgs h; simp [runSeq] at h
  | cons idx rest ih =>
    intro acc msgs h
    cases hres : chunkResult cap sp up chunks.length idx (chunks.getD (idx - 1) []) with
    | error e =>
      simp only [runSeq, hres, List.mem_singleton, CapCall.chunkCall.injEq] at h
      exact ⟨idx, List.mem_cons_self idx rest, h⟩
    | ok r =>
      simp only [runSeq, hres, List.mem_cons, CapCall.chunkCall.injEq] at h
      rcases h with h | h
      · exact ⟨idx, List.mem_cons_self idx rest, h⟩
      · obtain ⟨j, hj, hmsgs⟩ := ih _ msgs h
        exact ⟨j, List.mem_cons_of_mem idx hj, hmsgs⟩

theorem multiRun_trace_mem {ε : Type} (cap : Cap ε) (sp up : Str) (chunks : List Str)
    (W : Int) (perm : List Nat) (msgs : List Message)
    (h : CapCall.chunkCall msgs ∈ (multiRun cap sp up chunks W perm).1) :
    ∃ idx ∈ List.range' 1 chunks.length,
      msgs = chunkMsgs sp up idx chunks.length (chunks.getD (idx - 1) []) := by
  by_cases hcond : 1 < W ∧ 1 < chunks.length
  · simp only [multiRun] at h
    rw [if_pos hcond] at h
    simp only [concTrace, List.mem_map, CapCall.chunkCall.injEq] at h
    obtain ⟨idx, hidx, hmsgs⟩ := h
    exact ⟨idx, hidx, hmsgs.symm⟩
  · simp only [multiRun] at h
    rw [if_neg hcond] at h
    exact runSeq_trace_mem cap sp up chunks _ _ msgs h

theorem multiRun_parts {ε : Type} (cap : Cap ε) (sp up : Str) (chunks : List Str)
    (W : Int) (perm : List Nat) (f : Nat → Str)
    (hperm : perm.Perm (List.range' 1 chunks.length))
    (hok : ∀ idx ∈ List.range' 1 chunks.length,
      chunkResult cap sp up chunks.length idx (chunks.getD (idx - 1) []) = Except.ok (f idx)) :
    (multiRun cap sp up chunks W perm).2 =
      Except.ok ((List.range' 1 chunks.length).map f) := by
  rw [multiRun_res]
  unfold dispatchOrder
  split
  · exact collectParts_of_perm cap sp up chunks f perm hperm
      (fun idx h => hok idx (hperm.mem_iff.mp h))
  · exact collectParts_of_perm cap sp up chunks f _ (List.Perm.refl _) hok

/-! Claim theorems. -/

/-- C2: for every text of length L and every maxCharsPerChunk M > 0, if L ≤ M
then `_chunk` returns exactly one chunk equal to the whole text; if L > M it
returns ceil(L/M) chunks (written `(L + M - 1) / M`), each of length exactly M
except the last, whose length is L mod M (or M when L is an exact multiple of
M); in particular M = 10 on the 15-character input "abcdefghijklmno" yields
["abcdefghij", "klmno"]. -/
theorem chunk_sizes (M : Nat) (text : Str) (hM : 0 < M) :
    (text.length ≤ M → chunk M text = [text]) ∧
    (M < text.length →
      (chunk M text).length = (text.length + M - 1) / M ∧
      (∀ c ∈ (chunk M text).dropLast, c.length = M) ∧
      (∃ last, (chunk M text).getLast? = some last ∧
        last.length = if text.length % M = 0 then M else text.length % M)) ∧
    chunk 10 (strOf "abcdefghijklmno") = [strOf "abcdefghij", strOf "klmno"] := by
  refine ⟨?_, ?_, by decide⟩
  · intro h
    rw [chunk, if_pos h]
  · intro h
    have hne : text ≠ [] := by
      intro hc
      subst hc
      simp at h
    rw [chunk, if_neg (by omega)]
    exact chunkLoop_spec M hM text.length text (Nat.le_refl _) hne

/-- Witness for C2 at the claim's own scenario (M = 10, the 15-character
input). -/
theorem chunk_sizes_witness :
    0 < 10 ∧ chunk 10 (strOf "abcdefghijklmno") = [strOf "abcdefghij", strOf "klmno"] :=
  ⟨by decide, (chunk_sizes 10 (strOf "abcdefghijklmno") (by decide)).2.2⟩

/-- C3: for every text and every maxCharsPerChunk M > 0, concatenating the
chunks returned by `_chunk` in index order reproduces the original text
exactly. -/
theorem chunk_concat (M : Nat) (text : Str) (hM : 0 < M) :
    (chunk M text).flatten = text := by
  rw [chunk]
  by_cases h : text.length ≤ M
  · rw [if_pos h]
    simp
  · rw [if_neg h]
    exact chunkLoop_join M hM text.length text (Nat.le_refl _)

/-- Witness for C3 at M = 3 on a 5-character input (two chunks). -/
theorem chunk_concat_witness :
    0 < 3 ∧ (chunk 3 (strOf "abcde")).flatten = strOf "abcde" :=
  ⟨by decide, chunk_concat 3 (strOf "abcde") (by decide)⟩

/-- C5: for every input that fits in a single chunk, `summarize` makes exactly
one capability call whose user message is the plain userPrompt (no
"Chunk i/N" prefixing) followed by the "\n\nCONTENT:\n" separator and the
text, issues no synthesis call, and returns that single call's raw output
verbatim as the final result. -/
theorem summarize_single_chunk {ε : Type} (cap : Cap ε) (M : Nat) (W : Int)
    (sp up : Option Str) (text : Str) (perm : List Nat) (h : text.length ≤ M) :
    summarize cap M W sp up text perm =
      ([CapCall.single [sysMsg (sp.getD defaultSystemPrompt),
          userMsg (up.getD defaultUserPrompt ++ contentSep ++ text)]],
        getChatCompletion cap [sysMsg (sp.getD defaultSystemPrompt),
          userMsg (up.getD defaultUserPrompt ++ contentSep ++ text)]) := by
  have hc : chunk M text = [text] := by rw [chunk, if_pos h]
  simp [summarize, hc]

/-- Witness for C5 on a 2-character input with M = 10. -/
theorem summarize_single_chunk_witness :
    (strOf "hi").length ≤ 10 ∧
    summarize capConst 10 5 (some (strOf "s")) (some (strOf "u")) (strOf "hi") [] =
      ([CapCall.single [sysMsg ((some (strOf "s")).getD defaultSystemPrompt),
          userMsg ((some (strOf "u")).getD defaultUserPrompt ++ contentSep ++ strOf "hi")]],
        getChatCompletion capConst [sysMsg ((some (strOf "s")).getD defaultSystemPrompt),
          userMsg ((some (strOf "u")).getD defaultUserPrompt ++ contentSep ++ strOf "hi")]) :=
  ⟨by decide,
    summarize_single_chunk capConst 10 5 (some (strOf "s")) (some (strOf "u")) (strOf "hi") []
      (by decide)⟩

/-- C6 counterexample: an empty (falsy) capability reply does NOT make
`summarize` fail. With a capability whose every reply is empty, `summarize`
returns `Except.ok ""` both on a single-chunk input and on a two-chunk input
(where every per-chunk reply and the synthesis reply are empty):
`_get_chat_completion` line 80 coerces a falsy response to `""` and line 135
(`result or ""`) keeps it, so a final summary is produced instead of a
failure. -/
theorem summarize_empty_reply_tolerated :
    (summarize capEmpty 10 1 (some (strOf "s")) (some (strOf "u")) (strOf "hi") []).2 =
      Except.ok [] ∧
    (summarize capEmpty 1 1 (some (strOf "s")) (some (strOf "u")) (strOf "ab") []).2 =
      Except.ok [] := by
  constructor <;> decide

/-- C6 amended: a capability call that raises an error for any individual
chunk, or for the synthesis step alone while every chunk call succeeds,
makes the whole `summarize` call fail (the error propagates, no final
summary is produced); an empty (falsy) reply, by contrast, never makes
`summarize` fail: whenever no call raises, a final summary is returned
(line 80 coerces a falsy reply to "" and line 135 keeps it). -/
theorem summarize_error_vs_empty {ε : Type} (cap : Cap ε) (M : Nat) (W : Int)
    (sp up : Option Str) (text : Str) (perm : List Nat) (chunks : List Str) (f : Nat → Str)
    (hchunks : chunk M text = chunks)
    (hN : 2 ≤ chunks.length)
    (hperm : perm.Perm (List.range' 1 chunks.length)) :
    ((∃ idx ∈ dispatchOrder W chunks.length perm,
        (chunkResult cap (sp.getD defaultSystemPrompt) (up.getD defaultUserPrompt)
          chunks.length idx (chunks.getD (idx - 1) [])).isErr = true) →
      ∃ e, (summarize cap M W sp up text perm).2 = Except.error e) ∧
    ((∀ idx ∈ List.range' 1 chunks.length,
        chunkResult cap (sp.getD defaultSystemPrompt) (up.getD defaultUserPrompt)
          chunks.length idx (chunks.getD (idx - 1) []) = Except.ok (f idx)) →
      ∀ e, cap (synthMsgs (sp.getD defaultSystemPrompt)
          ((List.range' 1 chunks.length).map f)) = Except.error e →
        (summarize cap M W sp up text perm).2 = Except.error e) ∧
    ((∀ m, (cap m).isErr = false) →
      ∃ s, (summarize cap M W sp up text perm).2 = Except.ok s) := by
  subst hchunks
  refine ⟨?_, ?_, ?_⟩
  · intro herr
    obtain ⟨e, hcoll⟩ := collectParts_error cap (sp.getD defaultSystemPrompt)
      (up.getD defaultUserPrompt) (chunk M text) (dispatchOrder W (chunk M text).length perm)
      (List.replicate (chunk M text).length []) herr
    have h2 := (multiRun_res cap (sp.getD defaultSystemPrompt) (up.getD defaultUserPrompt)
      (chunk M text) W perm).trans hcoll
    rw [summarize_of_multi_error cap M W sp up text perm e (by omega) h2]
    exact ⟨e, rfl⟩
  · intro hok e hsynth
    have hmain := multiRun_parts cap (sp.getD defaultSystemPrompt) (up.getD defaultUserPrompt)
      (chunk M text) W perm f hperm hok
    rw [summarize_of_multi_ok cap M W sp up text perm _ (by omega) hmain]
    show getChatCompletion cap _ = Except.error e
    rw [getChatCompletion, hsynth]
  · intro hcap
    obtain ⟨parts, hp⟩ := collectParts_total cap (sp.getD defaultSystemPrompt)
      (up.getD defaultUserPrompt) (chunk M text) hcap
      (dispatchOrder W (chunk M text).length perm)
      (List.replicate (chunk M text).length [])
    have h2 := (multiRun_res cap (sp.getD defaultSystemPrompt) (up.getD defaultUserPrompt)
      (chunk M text) W perm).trans hp
    rw [summarize_of_multi_ok cap M W sp up text perm parts (by omega) h2]
    show ∃ s, getChatCompletion cap _ = Except.ok s
    exact getChatCompletion_ok_of_cap_ok cap _ hcap

/-- Witness for the amended C6 on a two-chunk input: a capability raising on
a chunk call fails `summarize`; a capability raising only on the synthesis
call, with both chunk calls succeeding, fails `summarize`; and the
all-empty-reply capability still yields a summary. -/
theorem summarize_error_vs_empty_witness :
    chunk 3 (strOf "abcde") = [strOf "abc", strOf "de"] ∧
    (∃ e, (summarize capFail 3 1 (some (strOf "s")) (some (strOf "u"))
      (strOf "abcde") [1, 2]).2 = Except.error e) ∧
    (summarize capSynthFail 3 4 (some (strOf "s")) (some (strOf "u"))
      (strOf "abcde") [2, 1]).2 = Except.error () ∧
    (∃ s, (summarize capEmpty 3 1 (some (strOf "s")) (some (strOf "u"))
      (strOf "abcde") [1, 2]).2 = Except.ok s) :=
  ⟨by decide,
    (summarize_error_vs_empty capFail 3 1 (some (strOf "s")) (some (strOf "u"))
      (strOf "abcde") [1, 2] [strOf "abc", strOf "de"] (fun _ => strOf "S")
      (by decide) (by decide) (by decide)).1 (by decide),
    (summarize_error_vs_empty capSynthFail 3 4 (some (strOf "s")) (some (strOf "u"))
      (strOf "abcde") [2, 1] [strOf "abc", strOf "de"] (fun _ => strOf "S")
      (by decide) (by decide) (by decide)).2.1 (by decide) () (by decide),
    (summarize_error_vs_empty capEmpty 3 1 (some (strOf "s")) (some (strOf "u"))
      (strOf "abcde") [1, 2] [strOf "abc", strOf "de"] (fun _ => strOf "S")
      (by decide) (by decide) (by decide)).2.2 (fun _ => rfl)⟩

/-- C10: for every configured chunk_workers value w the client's effective
worker count is max(1, w); when the key is absent it defaults to 1; and a
non-positive w yields effective worker count 1, under which `summarize`
ignores the completion order entirely (sequential dispatch), rather than
raising an error. -/
theorem effective_workers (w : Int) :
    effectiveChunkWorkers (chunkWorkersOfConfig (some w)) = max 1 w ∧
    effectiveChunkWorkers (chunkWorkersOfConfig none) = 1 ∧
    (w ≤ 0 →
      effectiveChunkWorkers (chunkWorkersOfConfig (some w)) = 1 ∧
      ∀ {ε : Type} (cap : Cap ε) (M : Nat) (sp up : Option Str) (text : Str)
        (perm perm' : List Nat),
        summarize cap M (effectiveChunkWorkers (chunkWorkersOfConfig (some w))) sp up text perm =
          summarize cap M (effectiveChunkWorkers (chunkWorkersOfConfig (some w)))
            sp up text perm') := by
  have hone : ∀ hw : w ≤ 0, effectiveChunkWorkers (chunkWorkersOfConfig (some w)) = 1 := by
    intro hw
    show max 1 w = 1
    exact max_eq_left (by omega)
  refine ⟨rfl, rfl, fun hw => ⟨hone hw, ?_⟩⟩
  intro ε cap M sp up text perm perm'
  rw [hone hw]
  have hm : multiRun cap (sp.getD defaultSystemPrompt) (up.getD defaultUserPrompt)
      (chunk M text) 1 perm =
      multiRun cap (sp.getD defaultSystemPrompt) (up.getD defaultUserPrompt)
        (chunk M text) 1 perm' := by
    rw [multiRun_of_seq cap _ _ _ 1 perm (le_refl 1),
      multiRun_of_seq cap _ _ _ 1 perm' (le_refl 1)]
  simp only [summarize]
  rw [hm]

/-- Witness for C10 at the configured value w = -2: the effective worker
count is 1 and `summarize` is completion-order independent. -/
theorem effective_workers_witness :
    (-2 : Int) ≤ 0 ∧
    effectiveChunkWorkers (chunkWorkersOfConfig (some (-2))) = 1 ∧
    summarize capConst 3 (effectiveChunkWorkers (chunkWorkersOfConfig (some (-2))))
        (some (strOf "s")) (some (strOf "u")) (strOf "abcde") [2, 1] =
      summarize capConst 3 (effectiveChunkWorkers (chunkWorkersOfConfig (some (-2))))
        (some (strOf "s")) (some (strOf "u")) (strOf "abcde") [1, 2] :=
  ⟨by decide, ((effective_workers (-2)).2.2 (by decide)).1,
    ((effective_workers (-2)).2.2 (by decide)).2 capConst 3 (some (strOf "s"))
      (some (strOf "u")) (strOf "abcde") [2, 1] [1, 2]⟩

/-- C1: for every input that chunks into N ≥ 2 chunks and every worker count
W ≥ 1, the list of partial summaries handed to the synthesis call has length
exactly N and its i-th element is the capability result for the chunk with
index i (ascending index order), no matter in which order the per-chunk
tasks complete (any completion order `perm` that is a permutation of the
submitted indices 1..N). -/
theorem summarize_ordered_parts {ε : Type} (cap : Cap ε) (M : Nat) (W : Int)
    (sp up : Option Str) (text : Str) (perm : List Nat) (chunks : List Str) (f : Nat → Str)
    (hchunks : chunk M text = chunks)
    (hN : 2 ≤ chunks.length)
    (hW : 1 ≤ W)
    (hperm : perm.Perm (List.range' 1 chunks.length))
    (hok : ∀ idx ∈ List.range' 1 chunks.length,
      chunkResult cap (sp.getD defaultSystemPrompt) (up.getD defaultUserPrompt)
        chunks.length idx (chunks.getD (idx - 1) []) = Except.ok (f idx)) :
    (multiRun cap (sp.getD defaultSystemPrompt) (up.getD defaultUserPrompt)
        chunks W perm).2 = Except.ok ((List.range' 1 chunks.length).map f) ∧
    ((List.range' 1 chunks.length).map f).length = chunks.length ∧
    (∀ i (hi : i < chunks.length),
      ((List.range' 1 chunks.length).map f).get ⟨i, by simpa using hi⟩ = f (i + 1)) ∧
    (summarize cap M W sp up text perm).2 =
      getChatCompletion cap (synthMsgs (sp.getD defaultSystemPrompt)
        ((List.range' 1 chunks.length).map f)) := by
  subst hchunks
  have hmain := multiRun_parts cap (sp.getD defaultSystemPrompt) (up.getD defaultUserPrompt)
    (chunk M text) W perm f hperm hok
  refine ⟨hmain, by simp, ?_, ?_⟩
  · intro i hi
    simp only [List.get_eq_getElem, List.getElem_map, List.getElem_range']
    congr 1
    omega
  · rw [summarize_of_multi_ok cap M W sp up text perm _ (by omega) hmain]

/-- Witness for C1: two chunks, four workers, reverse completion order. -/
theorem summarize_ordered_parts_witness :
    chunk 3 (strOf "abcde") = [strOf "abc", strOf "de"] ∧
    List.Perm [2, 1] (List.range' 1 2) ∧
    (multiRun capConst ((some (strOf "s")).getD defaultSystemPrompt)
        ((some (strOf "u")).getD defaultUserPrompt) [strOf "abc", strOf "de"] 4 [2, 1]).2 =
      Except.ok ((List.range' 1 2).map (fun _ => strOf "S")) :=
  ⟨by decide, by decide,
    (summarize_ordered_parts capConst 3 4 (some (strOf "s")) (some (strOf "u"))
      (strOf "abcde") [2, 1] [strOf "abc", strOf "de"] (fun _ => strOf "S")
      (by decide) (by decide) (by decide) (by decide) (by decide)).1⟩

/-- C4: if the capability call for any one chunk raises an error, the whole
`summarize` call fails (the first error in completion order propagates to
the caller) and the synthesis capability call is never issued; no
partial-success result is ever returned. -/
theorem summarize_chunk_error_fails {ε : Type} (cap : Cap ε) (M : Nat) (W : Int)
    (sp up : Option Str) (text : Str) (perm : List Nat) (chunks : List Str)
    (hchunks : chunk M text = chunks)
    (hN : 2 ≤ chunks.length)
    (herr : ∃ idx ∈ dispatchOrder W chunks.length perm,
      (chunkResult cap (sp.getD defaultSystemPrompt) (up.getD defaultUserPrompt)
        chunks.length idx (chunks.getD (idx - 1) [])).isErr = true) :
    (∃ e, (summarize cap M W sp up text perm).2 = Except.error e) ∧
    (∀ c ∈ (summarize cap M W sp up text perm).1, c.isSynth = false) := by
  subst hchunks
  obtain ⟨e, hcoll⟩ := collectParts_error cap (sp.getD defaultSystemPrompt)
    (up.getD defaultUserPrompt) (chunk M text) (dispatchOrder W (chunk M text).length perm)
    (List.replicate (chunk M text).length []) herr
  have h2 := (multiRun_res cap (sp.getD defaultSystemPrompt) (up.getD defaultUserPrompt)
    (chunk M text) W perm).trans hcoll
  rw [summarize_of_multi_error cap M W sp up text perm e (by omega) h2]
  refine ⟨⟨e, rfl⟩, ?_⟩
  intro c hc
  obtain ⟨m, rfl⟩ := multiRun_trace_shape cap (sp.getD defaultSystemPrompt)
    (up.getD defaultUserPrompt) (chunk M text) W perm c hc
  rfl

/-- Witness for C4: with an always-raising capability on a two-chunk input,
`summarize` fails. -/
theorem summarize_chunk_error_fails_witness :
    chunk 3 (strOf "abcde") = [strOf "abc", strOf "de"] ∧
    (∃ idx ∈ dispatchOrder 1 2 [],
      (chunkResult capFail ((some (strOf "s")).getD defaultSystemPrompt)
        ((some (strOf "u")).getD defaultUserPrompt) 2 idx
        ([strOf "abc", strOf "de"].getD (idx - 1) [])).isErr = true) ∧
    (∃ e, (summarize capFail 3 1 (some (strOf "s")) (some (strOf "u"))
      (strOf "abcde") []).2 = Except.error e) :=
  ⟨by decide, by decide,
    (summarize_chunk_error_fails capFail 3 1 (some (strOf "s")) (some (strOf "u"))
      (strOf "abcde") [] [strOf "abc", strOf "de"]
      (by decide) (by decide) (by decide)).1⟩

/-- C7: when there are N ≥ 2 chunks, every per-chunk capability call, at
every worker count, sends exactly two messages: a system message equal to
systemPrompt and a user message "Chunk {index}/{total}. {userPrompt}"
concatenated with the literal "\n\nCONTENT:\n" separator and the chunk's
content, where index is the chunk's 1-based index and total is N; and in the
sequential case (worker count ≤ 1) these calls are made one per chunk in
ascending index order, followed by the synthesis call. -/
theorem summarize_sequential_calls {ε : Type} (cap : Cap ε) (M : Nat) (W : Int)
    (sp up : Option Str) (text : Str) (perm : List Nat) (chunks : List Str) (f : Nat → Str)
    (hchunks : chunk M text = chunks)
    (hN : 2 ≤ chunks.length) :
    (∀ msgs, CapCall.chunkCall msgs ∈ (summarize cap M W sp up text perm).1 →
      ∃ idx, 1 ≤ idx ∧ idx ≤ chunks.length ∧
        msgs = [sysMsg (sp.getD defaultSystemPrompt),
          userMsg (strOf "Chunk " ++ natToStr idx ++ strOf "/" ++ natToStr chunks.length ++
            strOf ". " ++ up.getD defaultUserPrompt ++ contentSep ++
            chunks.getD (idx - 1) [])]) ∧
    (W ≤ 1 →
      (∀ idx ∈ List.range' 1 chunks.length,
        chunkResult cap (sp.getD defaultSystemPrompt) (up.getD defaultUserPrompt)
          chunks.length idx (chunks.getD (idx - 1) []) = Except.ok (f idx)) →
      (summarize cap M W sp up text perm).1 =
        (List.range' 1 chunks.length).map (fun idx =>
          CapCall.chunkCall [sysMsg (sp.getD defaultSystemPrompt),
            userMsg (strOf "Chunk " ++ natToStr idx ++ strOf "/" ++ natToStr chunks.length ++
              strOf ". " ++ up.getD defaultUserPrompt ++ contentSep ++
              chunks.getD (idx - 1) [])]) ++
        [CapCall.synthesis (synthMsgs (sp.getD defaultSystemPrompt)
          ((List.range' 1 chunks.length).map f))]) := by
  subst hchunks
  constructor
  · intro msgs hmem
    have hshape : ∃ idx ∈ List.range' 1 (chunk M text).length,
        msgs = chunkMsgs (sp.getD defaultSystemPrompt) (up.getD defaultUserPrompt) idx
          (chunk M text).length ((chunk M text).getD (idx - 1) []) := by
      rcases hres : (multiRun cap (sp.getD defaultSystemPrompt) (up.getD defaultUserPrompt)
          (chunk M text) W perm).2 with e | parts
      · rw [summarize_of_multi_error cap M W sp up text perm e (by omega) hres] at hmem
        exact multiRun_trace_mem cap (sp.getD defaultSystemPrompt)
          (up.getD defaultUserPrompt) (chunk M text) W perm msgs hmem
      · rw [summarize_of_multi_ok cap M W sp up text perm parts (by omega) hres] at hmem
        have hmem2 : CapCall.chunkCall msgs ∈
            (multiRun cap (sp.getD defaultSystemPrompt) (up.getD defaultUserPrompt)
              (chunk M text) W perm).1 ++
            [CapCall.synthesis (synthMsgs (sp.getD defaultSystemPrompt) parts)] := hmem
        rcases List.mem_append.mp hmem2 with h1 | h2
        · exact multiRun_trace_mem cap (sp.getD defaultSystemPrompt)
            (up.getD defaultUserPrompt) (chunk M text) W perm msgs h1
        · simp at h2
    obtain ⟨idx, hidx, hmsgs⟩ := hshape
    have hb := (mem_range_one 1 (chunk M text).length idx).mp hidx
    exact ⟨idx, by omega, by omega, by rw [hmsgs]; rfl⟩
  · intro hW hok
    have h2 : (multiRun cap (sp.getD defaultSystemPrompt) (up.getD defaultUserPrompt)
        (chunk M text) W perm).2 =
        Except.ok ((List.range' 1 (chunk M text).length).map f) := by
      rw [multiRun_of_seq cap (sp.getD defaultSystemPrompt) (up.getD defaultUserPrompt)
        (chunk M text) W perm hW, runSeq_res]
      exact collectParts_of_perm cap (sp.getD defaultSystemPrompt)
        (up.getD defaultUserPrompt) (chunk M text) f _ (List.Perm.refl _) hok
    rw [summarize_of_multi_ok cap M W sp up text perm _ (by omega) h2]
    show (multiRun cap (sp.getD defaultSystemPrompt) (up.getD defaultUserPrompt)
        (chunk M text) W perm).1 ++ _ = _
    rw [multiRun_of_seq cap (sp.getD defaultSystemPrompt) (up.getD defaultUserPrompt)
      (chunk M text) W perm hW,
      runSeq_trace_ok cap (sp.getD defaultSystemPrompt) (up.getD defaultUserPrompt)
        (chunk M text) f _ _ hok]
    rfl

/-- Witness for C7: the call-shape clause is applied in the pool branch
(four workers, reverse completion order) at the first chunk's call, and the
ascending-order clause in the sequential branch. -/
theorem summarize_sequential_calls_witness :
    chunk 3 (strOf "abcde") = [strOf "abc", strOf "de"] ∧
    (∃ idx, 1 ≤ idx ∧ idx ≤ 2 ∧
      ([sysMsg ((some (strOf "s")).getD defaultSystemPrompt),
        userMsg (strOf "Chunk " ++ natToStr 1 ++ strOf "/" ++ natToStr 2 ++ strOf ". " ++
          (some (strOf "u")).getD defaultUserPrompt ++ contentSep ++ strOf "abc")] :
            List Message) =
        [sysMsg ((some (strOf "s")).getD defaultSystemPrompt),
          userMsg (strOf "Chunk " ++ natToStr idx ++ strOf "/" ++ natToStr 2 ++ strOf ". " ++
            (some (strOf "u")).getD defaultUserPrompt ++ contentSep ++
            ([strOf "abc", strOf "de"].getD (idx - 1) []))]) ∧
    (summarize capConst 3 1 (some (strOf "s")) (some (strOf "u")) (strOf "abcde") []).1 =
      (List.range' 1 2).map (fun idx =>
        CapCall.chunkCall [sysMsg ((some (strOf "s")).getD defaultSystemPrompt),
          userMsg (strOf "Chunk " ++ natToStr idx ++ strOf "/" ++ natToStr 2 ++
            strOf ". " ++ (some (strOf "u")).getD defaultUserPrompt ++ contentSep ++
            ([strOf "abc", strOf "de"].getD (idx - 1) []))]) ++
      [CapCall.synthesis (synthMsgs ((some (strOf "s")).getD defaultSystemPrompt)
        ((List.range' 1 2).map (fun _ => strOf "S")))] :=
  ⟨by decide,
    (summarize_sequential_calls capConst 3 4 (some (strOf "s")) (some (strOf "u"))
      (strOf "abcde") [2, 1] [strOf "abc", strOf "de"] (fun _ => strOf "S")
      (by decide) (by decide)).1
      [sysMsg ((some (strOf "s")).getD defaultSystemPrompt),
        userMsg (strOf "Chunk " ++ natToStr 1 ++ strOf "/" ++ natToStr 2 ++ strOf ". " ++
          (some (strOf "u")).getD defaultUserPrompt ++ contentSep ++ strOf "abc")]
      (by decide),
    (summarize_sequential_calls capConst 3 1 (some (strOf "s")) (some (strOf "u"))
      (strOf "abcde") [] [strOf "abc", strOf "de"] (fun _ => strOf "S")
      (by decide) (by decide)).2 (by decide) (by decide)⟩

/-- C8: when there are N ≥ 2 chunks, `summarize` issues exactly one
additional (synthesis) capability call after the per-chunk calls; its user
message is the fixed synthesis instruction (with the "PARTIAL SUMMARIES"
header) concatenated with all ordered partial summaries joined by the
blank-line "\n\n" separator, and the raw reply of that call is returned
unmodified as the final output. -/
theorem summarize_synthesis_step {ε : Type} (cap : Cap ε) (M : Nat) (W : Int)
    (sp up : Option Str) (text : Str) (perm : List Nat) (chunks : List Str) (f : Nat → Str)
    (hchunks : chunk M text = chunks)
    (hN : 2 ≤ chunks.length)
    (hperm : perm.Perm (List.range' 1 chunks.length))
    (hok : ∀ idx ∈ List.range' 1 chunks.length,
      chunkResult cap (sp.getD defaultSystemPrompt) (up.getD defaultUserPrompt)
        chunks.length idx (chunks.getD (idx - 1) []) = Except.ok (f idx)) :
    (∃ pre, (summarize cap M W sp up text perm).1 =
        pre ++ [CapCall.synthesis (synthMsgs (sp.getD defaultSystemPrompt)
          ((List.range' 1 chunks.length).map f))] ∧
      ∀ c ∈ pre, c.isSynth = false) ∧
    (summarize cap M W sp up text perm).2 =
      getChatCompletion cap (synthMsgs (sp.getD defaultSystemPrompt)
        ((List.range' 1 chunks.length).map f)) ∧
    synthMsgs (sp.getD defaultSystemPrompt) ((List.range' 1 chunks.length).map f) =
      [sysMsg (sp.getD defaultSystemPrompt),
        userMsg (synthInstr ++ partsHeader ++
          joinSep blankLine ((List.range' 1 chunks.length).map f))] := by
  subst hchunks
  have hmain := multiRun_parts cap (sp.getD defaultSystemPrompt) (up.getD defaultUserPrompt)
    (chunk M text) W perm f hperm hok
  rw [summarize_of_multi_ok cap M W sp up text perm _ (by omega) hmain]
  refine ⟨⟨(multiRun cap (sp.getD defaultSystemPrompt) (up.getD defaultUserPrompt)
    (chunk M text) W perm).1, rfl, ?_⟩, rfl, rfl⟩
  intro c hc
  obtain ⟨m, rfl⟩ := multiRun_trace_shape cap (sp.getD defaultSystemPrompt)
    (up.getD defaultUserPrompt) (chunk M text) W perm c hc
  rfl

/-- Witness for C8: two chunks, four workers, reverse completion order. -/
theorem summarize_synthesis_step_witness :
    List.Perm [2, 1] (List.range' 1 2) ∧
    (summarize capConst 3 4 (some (strOf "s")) (some (strOf "u")) (strOf "abcde") [2, 1]).2 =
      getChatCompletion capConst (synthMsgs ((some (strOf "s")).getD defaultSystemPrompt)
        ((List.range' 1 2).map (fun _ => strOf "S"))) :=
  ⟨by decide,
    (summarize_synthesis_step capConst 3 4 (some (strOf "s")) (some (strOf "u"))
      (strOf "abcde") [2, 1] [strOf "abc", strOf "de"] (fun _ => strOf "S")
      (by decide) (by decide) (by decide) (by decide)).2.1⟩
